import Mathlib

/-!
Shallow embedding of `src/main.py` (ads-trackers-list): the blocklist
rule-extraction pipeline.  Text-level helpers model the Python string
operations (`str.strip`, `str.lower`, `str.splitlines`, `str.split`) and the
three pre-compiled regular expressions `HOSTS_PATTERN`, `ADGUARD_PATTERN`,
`RAW_DOMAIN_PATTERN`; `parse_blocklist` models the parser; the manifest loop,
the combined-list sealing and the protobuf assembly of `main` are modelled as
explicit state passing over an association list with Python-`dict` insertion
semantics.  Character classes (`\w`, `\s`) are modelled over ASCII, which is
the character range all claims and the blocklist dialects are about.
-/

/-- ASCII whitespace recognised by Python `str.strip`, `str.split` and the
regex class `\s`. -/
def pyIsSpace (c : Char) : Bool :=
  c = ' ' || c = '\t' || c = '\n' || c = '\r' || c = '\x0b' || c = '\x0c'

/-- The ASCII uppercase letters paired with their lowercase forms; the
case-mapping table used by `str.lower`/`str.upper` on the ASCII range. -/
def upperLowerTable : List (Char × Char) :=
  [('A', 'a'), ('B', 'b'), ('C', 'c'), ('D', 'd'), ('E', 'e'), ('F', 'f'),
   ('G', 'g'), ('H', 'h'), ('I', 'i'), ('J', 'j'), ('K', 'k'), ('L', 'l'),
   ('M', 'm'), ('N', 'n'), ('O', 'o'), ('P', 'p'), ('Q', 'q'), ('R', 'r'),
   ('S', 's'), ('T', 't'), ('U', 'u'), ('V', 'v'), ('W', 'w'), ('X', 'x'),
   ('Y', 'y'), ('Z', 'z')]

/-- `str.lower` on one character (ASCII range). -/
def pyLowerChar (c : Char) : Char :=
  match upperLowerTable.find? (fun p => p.1 == c) with
  | some p => p.2
  | none => c

/-- `str.upper` on one character (ASCII range). -/
def pyUpperChar (c : Char) : Char :=
  match upperLowerTable.find? (fun p => p.2 == c) with
  | some p => p.1
  | none => c

/-- Python `str.lower`. -/
def pyLower (s : String) : String := String.mk (s.toList.map pyLowerChar)

/-- Python `str.upper`. -/
def pyUpper (s : String) : String := String.mk (s.toList.map pyUpperChar)

/-- Strip a leading run of whitespace, then a trailing run: Python
`str.strip()` at the list-of-characters level. -/
def pyStripList (cs : List Char) : List Char :=
  (((cs.dropWhile pyIsSpace).reverse).dropWhile pyIsSpace).reverse

/-- Python `str.strip()`. -/
def pyStrip (s : String) : String := String.mk (pyStripList s.toList)

/-- Line-boundary characters of Python `str.splitlines` (besides `"\r\n"`,
which is handled as a single boundary). -/
def isLineBoundary (c : Char) : Bool :=
  c = '\n' || c = '\r' || c = '\x0b' || c = '\x0c' || c = '\x1c' ||
  c = '\x1d' || c = '\x1e' || c = '\x85' || c = '\u2028' || c = '\u2029'

/-- Worker for `splitlines`: `acc` holds the current line reversed. -/
def splitLinesList : List Char → List Char → List String
  | [], acc => if acc.isEmpty then [] else [String.mk acc.reverse]
  | '\r' :: '\n' :: rest, acc => String.mk acc.reverse :: splitLinesList rest []
  | c :: rest, acc =>
    if isLineBoundary c then String.mk acc.reverse :: splitLinesList rest []
    else splitLinesList rest (c :: acc)

/-- Python `str.splitlines()` (no trailing empty line, `"\r\n"` counts once). -/
def splitlines (s : String) : List String := splitLinesList s.toList []

/-- Worker for `pySplitWs`: `acc` holds the current token reversed. -/
def pySplitWsAux : List Char → List Char → List String
  | [], acc => if acc.isEmpty then [] else [String.mk acc.reverse]
  | c :: rest, acc =>
    if pyIsSpace c then
      if acc.isEmpty then pySplitWsAux rest []
      else String.mk acc.reverse :: pySplitWsAux rest []
    else pySplitWsAux rest (c :: acc)

/-- Python `str.split()` with no separator: split on whitespace runs,
dropping empty tokens. -/
def pySplitWs (s : String) : List String := pySplitWsAux s.toList []

/-- The regex class `\w` (ASCII range): letters, digits and underscore. -/
def isWordChar (c : Char) : Bool := c.isAlphanum || c = '_'

/-- The regex class `[\w.-]` shared by the three dialect patterns. -/
def isDomainChar (c : Char) : Bool := isWordChar c || c = '.' || c = '-'

/-- Consume an exact literal at the head of the input, returning the rest. -/
def dropLit : List Char → List Char → Option (List Char)
  | [], cs => some cs
  | _ :: _, [] => none
  | p :: ps, c :: cs => if c = p then dropLit ps cs else none

/-- After one of the IP literals of `HOSTS_PATTERN`: require `\s+`, then
capture the maximal nonempty `[\w.-]+` run (greedy; `\s` and `[\w.-]` are
disjoint, so maximal runs model the regex exactly). -/
def hostsTail (rest : List Char) : Option String :=
  match rest with
  | [] => none
  | c :: _ =>
    if pyIsSpace c then
      if ((rest.dropWhile pyIsSpace).takeWhile isDomainChar).isEmpty then none
      else some (String.mk ((rest.dropWhile pyIsSpace).takeWhile isDomainChar))
    else none

/-- `HOSTS_PATTERN.match(line)`, returning capture group 1:
`^(?:127\.0\.0\.1|0\.0\.0\.0)\s+([\w\.-]+)`. -/
def hostsMatch (s : String) : Option String :=
  match dropLit "127.0.0.1".toList s.toList with
  | some rest => hostsTail rest
  | none =>
    match dropLit "0.0.0.0".toList s.toList with
    | some rest => hostsTail rest
    | none => none

/-- `ADGUARD_PATTERN.match(line)`, returning capture group 1:
`^\|\|([\w\.-]+)\^` (the char after the maximal `[\w.-]+` run must be `^`,
which models the greedy group exactly since `^` is not in the class). -/
def adguardMatch (s : String) : Option String :=
  match dropLit "||".toList s.toList with
  | some rest =>
    if (rest.takeWhile isDomainChar).isEmpty then none
    else if (rest.dropWhile isDomainChar).head? = some '^' then
      some (String.mk (rest.takeWhile isDomainChar))
    else none
  | none => none

/-- Split a character list around its last `'.'`:
`some (before, after)` with `cs = before ++ '.' :: after`, or `none` if no
dot occurs. -/
def afterLastDot : List Char → Option (List Char × List Char)
  | [] => none
  | c :: cs =>
    match afterLastDot cs with
    | some p => some (c :: p.1, p.2)
    | none => if c = '.' then some ([], cs) else none

/-- `RAW_DOMAIN_PATTERN.match(token)` as a Boolean (the capture is the whole
token): `^([\w\.-]+\.[\w]+)$`.  A match exists iff every character is in
`[\w.-]` and the token splits at its last dot into a nonempty front and a
nonempty all-`\w` tail (the `[\w]+` tail admits no dot, so only the last dot
can witness the regex's backtracking). -/
def rawDomainMatch (t : String) : Bool :=
  let cs := t.toList
  cs.all isDomainChar &&
    (match afterLastDot cs with
     | some p => !p.1.isEmpty && !p.2.isEmpty && p.2.all isWordChar
     | none => false)

/-- A rule is the pair (rule-type string, domain), exactly the tuples the
Python code stores: the type is `"full"` or `"domain"` at parse time. -/
abbrev Rule := String × String

/-- The stripped line is a comment when its first character is `#`, `!` or
`/`: `line.startswith(("#", "!", "/"))`. -/
def isCommentHead (cs : List Char) : Bool :=
  match cs with
  | [] => false
  | c :: _ => c = '#' || c = '!' || c = '/'

/-- The per-line body of `parse_blocklist`'s loop: strip, skip blank and
comment lines, then try the hosts dialect, the AdGuard dialect and the
raw-domain fallback on the first whitespace token, in that order. -/
def classify_line (line : String) : Option Rule :=
  let l := pyStrip line
  if l = "" then none
  else if isCommentHead l.toList then none
  else
    match hostsMatch l with
    | some d => some ("full", pyLower d)
    | none =>
      match adguardMatch l with
      | some d => some ("domain", pyLower d)
      | none =>
        match pySplitWs l with
        | [] => none
        | t :: _ => if rawDomainMatch t then some ("domain", pyLower t) else none

/-- `parse_blocklist(content)`: fold the classifier over the lines,
accumulating the extracted rules in a set. -/
def parse_blocklist (content : String) : Finset Rule :=
  (splitlines content).foldl
    (fun acc line =>
      match classify_line line with
      | some r => insert r acc
      | none => acc) ∅

/-- The rules extracted from a list of lines, as a set. -/
def rulesOfLines (ls : List String) : Finset Rule :=
  (ls.filterMap classify_line).toFinset

/-- The four rule kinds of the output schema (`router_common_pb2.Domain`). -/
inductive RuleKind
  | Full
  | RootDomain
  | Regex
  | Plain
deriving DecidableEq

/-- The `rule_type_map` dictionary of `main`. -/
def rule_type_map : List (String × RuleKind) :=
  [("domain", RuleKind.RootDomain), ("full", RuleKind.Full),
   ("regexp", RuleKind.Regex), ("keyword", RuleKind.Plain)]

/-- `rule_type_map.get(rule_type, Domain.Plain)`: the schema code of a rule
type string, with `Plain` as the defensive default. -/
def kindCode (s : String) : RuleKind :=
  match rule_type_map.find? (fun p => p.1 == s) with
  | some p => p.2
  | none => RuleKind.Plain

/-- Outcome of one manifest line in `main`'s reading loop. -/
inductive LineOutcome
  | skipBlank
  | skipWarn
  | pair (name url : String)
deriving DecidableEq

/-- Split a character list at its first `','`: `some (before, after)`, or
`none` when no comma occurs.  Models `line.split(",", 1)` (which yields two
pieces when a comma exists and the whole line otherwise). -/
def splitCommaOnce : List Char → Option (List Char × List Char)
  | [] => none
  | c :: rest =>
    if c = ',' then some ([], rest)
    else
      match splitCommaOnce rest with
      | some p => some (c :: p.1, p.2)
      | none => none

/-- One manifest line: strip; skip blank lines and `#` comments; split at the
first comma (`line.split(",", 1)`) and strip both fields; a line with no
comma raises `ValueError` on unpacking and is skipped with a warning. -/
def manifestLine (line : String) : LineOutcome :=
  let l := pyStrip line
  if l = "" then LineOutcome.skipBlank
  else if l.toList.head? = some '#' then LineOutcome.skipBlank
  else
    match splitCommaOnce l.toList with
    | none => LineOutcome.skipWarn
    | some p => LineOutcome.pair (pyStrip (String.mk p.1)) (pyStrip (String.mk p.2))

/-- A catalog: the `blocklists` dict, as an association list in insertion
order with unique keys. -/
abbrev Catalog := List (String × Finset Rule)

/-- Python `dict` assignment `d[k] = v`: replace the value in place when the
key is present, append at the end otherwise. -/
def dictInsert (c : Catalog) (k : String) (v : Finset Rule) : Catalog :=
  match c with
  | [] => [(k, v)]
  | p :: t => if p.1 = k then (k, v) :: t else p :: dictInsert t k v

/-- Python `d.get(k)`: the value stored for a key, if any. -/
def lookupD (c : Catalog) (k : String) : Option (Finset Rule) :=
  match c.find? (fun p => p.1 == k) with
  | some p => some p.2
  | none => none

/-- One iteration of `main`'s manifest loop, over the state
`(blocklists, all_rules)`.  `fetch` is the network collaborator: `none`
models a `RequestException`, which skips the source. -/
def stepRun (fetch : String → Option String) (st : Catalog × Finset Rule)
    (line : String) : Catalog × Finset Rule :=
  match manifestLine line with
  | LineOutcome.pair name url =>
    match fetch url with
    | some content =>
      let rules := parse_blocklist content
      (dictInsert st.1 name rules, st.2 ∪ rules)
    | none => st
  | _ => st

/-- `main`'s manifest loop: fold over the manifest lines starting from the
empty `blocklists` dict and empty `all_rules` set. -/
def processManifest (fetch : String → Option String) (lines : List String) :
    Catalog × Finset Rule :=
  lines.foldl (stepRun fetch) ([], ∅)

/-- The rule sets of the successfully fetched-and-parsed sources, one entry
per processed manifest line (duplicated names included). -/
def parsedSets (fetch : String → Option String) (lines : List String) :
    List (Finset Rule) :=
  lines.filterMap (fun line =>
    match manifestLine line with
    | LineOutcome.pair _ url => (fetch url).map parse_blocklist
    | _ => none)

/-- The names of the successfully fetched-and-parsed sources, in manifest
order (duplicates included). -/
def namesProcessed (fetch : String → Option String) (lines : List String) :
    List String :=
  lines.filterMap (fun line =>
    match manifestLine line with
    | LineOutcome.pair name url => (fetch url).map (fun _ => name)
    | _ => none)

/-- Union of a list of rule sets. -/
def unionList (l : List (Finset Rule)) : Finset Rule :=
  l.foldr (fun s acc => s ∪ acc) ∅

/-- Union of the rule sets of all groups of a catalog. -/
def unionOfGroups (c : Catalog) : Finset Rule := unionList (c.map (fun p => p.2))

/-- Sealing the catalog (`if all_rules: blocklists["blocklists-all"] = ...`):
the combined entry is added only when `all_rules` is nonempty (Python
truthiness of a set). -/
def sealCatalog (c : Catalog) (all_rules : Finset Rule) : Catalog :=
  if all_rules = ∅ then c else dictInsert c "blocklists-all" all_rules

/-- Split on every comma (used to state what "comma-separated fields" means
in the specification's reading, as opposed to the code's `split(",", 1)`). -/
def commaSplitAll : List Char → List Char → List String
  | [], acc => [String.mk acc.reverse]
  | c :: rest, acc =>
    if c = ',' then String.mk acc.reverse :: commaSplitAll rest []
    else commaSplitAll rest (c :: acc)

/-- All comma-separated fields of a string: `s.split(",")`. -/
def commaFields (s : String) : List String := commaSplitAll s.toList []

/-- One output group: the upper-cased `country_code` label and the member
rules.  The protobuf entry order within a group comes from iterating a
Python set, which fixes no order, so the members are kept as the set. -/
structure OutputGroup where
  label : String
  rules : Finset Rule
deriving DecidableEq

/-- Lexicographic (code-point) string comparison `x <= y`, the order Python
uses to compare `str` values in `list.sort(key=...)`. -/
def strLeb : List Char → List Char → Bool
  | [], _ => true
  | _ :: _, [] => false
  | a :: as, b :: bs => if a = b then strLeb as bs else decide (a.toNat < b.toNat)

/-- The sort relation of `main`: groups ordered by ascending label. -/
def groupLe (g h : OutputGroup) : Prop := strLeb g.label.toList h.label.toList = true

instance : DecidableRel groupLe := fun g h =>
  inferInstanceAs (Decidable (strLeb g.label.toList h.label.toList = true))

/-- One catalog entry as an output group: `site.country_code = name.upper()`
plus the group's rules. -/
def toGroup (p : String × Finset Rule) : OutputGroup :=
  { label := pyUpper p.1, rules := p.2 }

/-- The model assembly of `main`: build one group per catalog entry, then
sort by label (`geosite_list.entry.sort(key=lambda s: s.country_code)`).
Python's `list.sort` is stable, and any stable sort of the same total
preorder yields the same list, so a stable insertion sort models it
exactly. -/
def assemble (c : Catalog) : List OutputGroup :=
  List.insertionSort groupLe (c.map toGroup)

/-! ### Character and string lemmas -/

theorem charToNat_inj {a b : Char} (h : a.toNat = b.toNat) : a = b :=
  Char.eq_of_val_eq (UInt32.ext h)

theorem table_key_not_value :
    ∀ p ∈ upperLowerTable, ∀ q ∈ upperLowerTable, (q.1 == p.2) = false := by
  decide

theorem table_value_not_space : ∀ p ∈ upperLowerTable, pyIsSpace p.2 = false := by
  decide

theorem pyLowerChar_idem (c : Char) : pyLowerChar (pyLowerChar c) = pyLowerChar c := by
  unfold pyLowerChar
  cases hf : upperLowerTable.find? (fun p => p.1 == c) with
  | none => simp [hf]
  | some p =>
    have hp : p ∈ upperLowerTable := List.mem_of_find?_eq_some hf
    have hnone : upperLowerTable.find? (fun q => q.1 == p.2) = none := by
      apply List.find?_eq_none.mpr
      intro q hq
      simp [table_key_not_value p hp q hq]
    simp [hnone]

theorem pyLowerChar_not_space {c : Char} (h : pyIsSpace c = false) :
    pyIsSpace (pyLowerChar c) = false := by
  unfold pyLowerChar
  cases hf : upperLowerTable.find? (fun p => p.1 == c) with
  | none => exact h
  | some p => exact table_value_not_space p (List.mem_of_find?_eq_some hf)

theorem isDomainChar_not_space {c : Char} (h : isDomainChar c = true) :
    pyIsSpace c = false := by
  cases hs : pyIsSpace c with
  | false => rfl
  | true =>
    exfalso
    have : ((((c = ' ' ∨ c = '\t') ∨ c = '\n') ∨ c = '\r') ∨ c = '\x0b') ∨ c = '\x0c' := by
      simpa [pyIsSpace] using hs
    rcases this with ((((h1 | h1) | h1) | h1) | h1) | h1 <;> subst h1 <;>
      simp_all [isDomainChar, isWordChar]

theorem string_mk_toList (s : String) : String.mk s.toList = s := rfl

theorem toList_string_mk (l : List Char) : (String.mk l).toList = l := rfl

theorem dropWhile_all_false {p : Char → Bool} :
    ∀ {l : List Char}, (∀ c ∈ l, p c = false) → l.dropWhile p = l := by
  intro l h
  cases l with
  | nil => rfl
  | cons a t => simp [List.dropWhile_cons, h a (by simp)]

theorem pyStrip_of_no_space {s : String} (h : ∀ c ∈ s.toList, pyIsSpace c = false) :
    pyStrip s = s := by
  unfold pyStrip pyStripList
  rw [dropWhile_all_false h, dropWhile_all_false (by intro c hc; exact h c (by simpa using hc))]
  simp [string_mk_toList]

theorem pyLower_toList (s : String) : (pyLower s).toList = s.toList.map pyLowerChar := rfl

theorem pyLower_idem (s : String) : pyLower (pyLower s) = pyLower s := by
  unfold pyLower
  rw [toList_string_mk, List.map_map]
  congr 1
  exact List.map_congr_left (fun c _ => pyLowerChar_idem c)

theorem pyLower_ne_empty {s : String} (h : s.toList ≠ []) : pyLower s ≠ "" := by
  intro he
  apply h
  have : (pyLower s).toList = ("" : String).toList := by rw [he]
  rw [pyLower_toList] at this
  simpa using this

theorem pyStrip_pyLower {s : String} (h : ∀ c ∈ s.toList, isDomainChar c = true) :
    pyStrip (pyLower s) = pyLower s := by
  apply pyStrip_of_no_space
  intro c hc
  rw [pyLower_toList] at hc
  obtain ⟨d, hd, rfl⟩ := List.mem_map.mp hc
  exact pyLowerChar_not_space (isDomainChar_not_space (h d hd))

/-! ### The parse fold and membership -/

theorem parse_fold (ls : List String) :
    ∀ acc : Finset Rule,
      ls.foldl (fun acc line =>
        match classify_line line with
        | some r => insert r acc
        | none => acc) acc = acc ∪ (ls.filterMap classify_line).toFinset := by
  induction ls with
  | nil => intro acc; simp
  | cons l t ih =>
    intro acc
    cases hc : classify_line l with
    | none => simp [List.foldl_cons, hc, ih acc, List.filterMap_cons, hc]
    | some r =>
      simp only [List.foldl_cons, hc, ih (insert r acc), List.filterMap_cons]
      rw [List.toFinset_cons, Finset.insert_union, Finset.union_insert]

theorem parse_eq (content : String) :
    parse_blocklist content = rulesOfLines (splitlines content) := by
  unfold parse_blocklist rulesOfLines
  rw [parse_fold]
  exact Finset.empty_union _

theorem mem_parse {content : String} {r : Rule} :
    r ∈ parse_blocklist content ↔
      ∃ line ∈ splitlines content, classify_line line = some r := by
  rw [parse_eq]
  unfold rulesOfLines
  rw [List.mem_toFinset, List.mem_filterMap]

/-! ### Shape of matcher captures -/

theorem hostsTail_cons (c : Char) (cs : List Char) :
    hostsTail (c :: cs) =
      if pyIsSpace c then
        if (((c :: cs).dropWhile pyIsSpace).takeWhile isDomainChar).isEmpty then none
        else some (String.mk (((c :: cs).dropWhile pyIsSpace).takeWhile isDomainChar))
      else none := rfl

theorem hostsTail_some {rest : List Char} {d : String} (h : hostsTail rest = some d) :
    d.toList ≠ [] ∧ ∀ c ∈ d.toList, isDomainChar c = true := by
  cases rest with
  | nil => cases h
  | cons c cs =>
    rw [hostsTail_cons] at h
    by_cases hs : pyIsSpace c = true
    · rw [if_pos hs] at h
      by_cases he : (((c :: cs).dropWhile pyIsSpace).takeWhile isDomainChar).isEmpty = true
      · rw [if_pos he] at h; cases h
      · rw [if_neg he] at h
        injection h with h'
        subst h'
        rw [toList_string_mk]
        constructor
        · intro hnil
          exact he (by simp [hnil])
        · intro x hx
          exact List.mem_takeWhile_imp hx
    · rw [if_neg hs] at h; cases h

theorem hostsMatch_some {s : String} {d : String} (h : hostsMatch s = some d) :
    d.toList ≠ [] ∧ ∀ c ∈ d.toList, isDomainChar c = true := by
  unfold hostsMatch at h
  cases h1 : dropLit "127.0.0.1".toList s.toList with
  | some rest => rw [h1] at h; exact hostsTail_some h
  | none =>
    rw [h1] at h
    cases h2 : dropLit "0.0.0.0".toList s.toList with
    | some rest =>
      simp only [h2] at h
      exact hostsTail_some h
    | none => simp only [h2] at h; cases h

theorem adguardMatch_some {s : String} {d : String} (h : adguardMatch s = some d) :
    d.toList ≠ [] ∧ ∀ c ∈ d.toList, isDomainChar c = true := by
  unfold adguardMatch at h
  cases h1 : dropLit "||".toList s.toList with
  | none => rw [h1] at h; cases h
  | some rest =>
    simp only [h1] at h
    by_cases he : (rest.takeWhile isDomainChar).isEmpty = true
    · rw [if_pos he] at h; cases h
    · rw [if_neg he] at h
      by_cases hx : (rest.dropWhile isDomainChar).head? = some '^'
      · rw [if_pos hx] at h
        injection h with h'
        subst h'
        rw [toList_string_mk]
        constructor
        · intro hnil
          exact he (by simp [hnil])
        · intro y hy
          exact List.mem_takeWhile_imp hy
      · rw [if_neg hx] at h; cases h

theorem afterLastDot_cons (c : Char) (t : List Char) :
    afterLastDot (c :: t) =
      match afterLastDot t with
      | some p => some (c :: p.1, p.2)
      | none => if c = '.' then some ([], t) else none := rfl

theorem afterLastDot_none_of_not_mem {cs : List Char} (h : '.' ∉ cs) :
    afterLastDot cs = none := by
  induction cs with
  | nil => rfl
  | cons c t ih =>
    have hc : c ≠ '.' := fun hx => h (by simp [hx])
    have ht : '.' ∉ t := fun hx => h (by simp [hx])
    rw [afterLastDot_cons, ih ht]
    exact if_neg hc

theorem afterLastDot_not_mem_of_none {cs : List Char} (h : afterLastDot cs = none) :
    '.' ∉ cs := by
  induction cs with
  | nil => simp
  | cons c t ih =>
    rw [afterLastDot_cons] at h
    cases hq : afterLastDot t with
    | some q => rw [hq] at h; cases h
    | none =>
      simp only [hq] at h
      by_cases hc : c = '.'
      · rw [if_pos hc] at h; cases h
      · intro hmem
        rcases List.mem_cons.mp hmem with h1 | h1
        · exact hc h1.symm
        · exact ih hq h1

theorem afterLastDot_some_eq {cs : List Char} {p : List Char × List Char}
    (h : afterLastDot cs = some p) : cs = p.1 ++ '.' :: p.2 ∧ '.' ∉ p.2 := by
  induction cs generalizing p with
  | nil => cases h
  | cons c t ih =>
    rw [afterLastDot_cons] at h
    cases hq : afterLastDot t with
    | some q =>
      simp only [hq] at h
      injection h with h'
      subst h'
      obtain ⟨he, hb⟩ := ih hq
      constructor
      · rw [List.cons_append, ← he]
      · exact hb
    | none =>
      simp only [hq] at h
      by_cases hc : c = '.'
      · subst hc
        rw [if_pos rfl] at h
        injection h with h'
        subst h'
        exact ⟨rfl, afterLastDot_not_mem_of_none hq⟩
      · rw [if_neg hc] at h; cases h

theorem afterLastDot_of_decomp {a b : List Char} (hb : '.' ∉ b) :
    afterLastDot (a ++ '.' :: b) = some (a, b) := by
  induction a with
  | nil =>
    rw [List.nil_append, afterLastDot_cons, afterLastDot_none_of_not_mem hb]
    simp
  | cons x a' ih =>
    rw [List.cons_append, afterLastDot_cons, ih]

/-- The raw-domain token shape as the specification words it: every character
a word character, dot or hyphen, and the token splits as `front ++ "." ++
label` with a nonempty front and a nonempty final label of word characters
(at least `label.tld` shape; no scheme or path characters can occur). -/
def specRawShape (t : String) : Prop :=
  (∀ c ∈ t.toList, isDomainChar c = true) ∧
  ∃ a b : List Char,
    t.toList = a ++ '.' :: b ∧ a ≠ [] ∧ b ≠ [] ∧ ∀ c ∈ b, isWordChar c = true

theorem rawDomainMatch_iff (t : String) : rawDomainMatch t = true ↔ specRawShape t := by
  simp only [rawDomainMatch, specRawShape]
  constructor
  · intro h
    rw [Bool.and_eq_true] at h
    obtain ⟨hall, hmatch⟩ := h
    refine ⟨fun c hc => List.all_eq_true.mp hall c hc, ?_⟩
    cases hq : afterLastDot t.toList with
    | none => simp only [hq] at hmatch; exact absurd hmatch (by decide)
    | some p =>
      simp only [hq, Bool.and_eq_true] at hmatch
      obtain ⟨⟨h1, h2⟩, h3⟩ := hmatch
      obtain ⟨he, _⟩ := afterLastDot_some_eq hq
      exact ⟨p.1, p.2, he, by simpa using h1, by simpa using h2,
        fun c hc => List.all_eq_true.mp h3 c hc⟩
  · rintro ⟨hall, a, b, he, ha, hb, hw⟩
    rw [Bool.and_eq_true]
    refine ⟨List.all_eq_true.mpr hall, ?_⟩
    have hnb : '.' ∉ b := fun hmem => absurd (hw '.' hmem) (by decide)
    rw [he, afterLastDot_of_decomp hnb]
    simp [ha, hb, List.all_eq_true.mpr hw]

theorem rawDomainMatch_shape {t : String} (h : rawDomainMatch t = true) :
    t.toList ≠ [] ∧ ∀ c ∈ t.toList, isDomainChar c = true := by
  obtain ⟨hall, a, b, he, _, _, _⟩ := (rawDomainMatch_iff t).mp h
  exact ⟨by rw [he]; simp, hall⟩

/-! ### Every extracted rule is a lower-cased nonempty domain-charset token -/

theorem classify_some_shape {line : String} {r : Rule} (h : classify_line line = some r) :
    ∃ d : String, r.2 = pyLower d ∧ d.toList ≠ [] ∧ ∀ c ∈ d.toList, isDomainChar c = true := by
  simp only [classify_line] at h
  by_cases h1 : pyStrip line = ""
  · rw [if_pos h1] at h; cases h
  · rw [if_neg h1] at h
    by_cases h2 : isCommentHead (pyStrip line).toList = true
    · rw [if_pos h2] at h; cases h
    · rw [if_neg h2] at h
      cases hh : hostsMatch (pyStrip line) with
      | some d =>
        simp only [hh] at h
        injection h with h'
        subst h'
        exact ⟨d, rfl, (hostsMatch_some hh).1, (hostsMatch_some hh).2⟩
      | none =>
        simp only [hh] at h
        cases ha : adguardMatch (pyStrip line) with
        | some d =>
          simp only [ha] at h
          injection h with h'
          subst h'
          exact ⟨d, rfl, (adguardMatch_some ha).1, (adguardMatch_some ha).2⟩
        | none =>
          simp only [ha] at h
          cases hs : pySplitWs (pyStrip line) with
          | nil => simp only [hs] at h; cases h
          | cons tk rest =>
            simp only [hs] at h
            by_cases hr : rawDomainMatch tk = true
            · rw [if_pos hr] at h
              injection h with h'
              subst h'
              exact ⟨tk, rfl, (rawDomainMatch_shape hr).1, (rawDomainMatch_shape hr).2⟩
            · rw [if_neg hr] at h; cases h

theorem classify_rule_props {line : String} {r : Rule} (h : classify_line line = some r) :
    pyLower r.2 = r.2 ∧ r.2 ≠ "" ∧ pyStrip r.2 = r.2 := by
  obtain ⟨d, hd, hne, hdom⟩ := classify_some_shape h
  rw [hd]
  exact ⟨pyLower_idem d, pyLower_ne_empty hne, pyStrip_pyLower hdom⟩

/-! ### Catalog (dict) lemmas -/

theorem lookupD_cons (p : String × Finset Rule) (t : Catalog) (k : String) :
    lookupD (p :: t) k = if p.1 = k then some p.2 else lookupD t k := by
  unfold lookupD
  by_cases hp : p.1 = k
  · rw [List.find?_cons_of_pos _ (by simp [hp])]
    simp [hp]
  · rw [List.find?_cons_of_neg _ (by simp [hp])]
    simp [hp]

theorem dictInsert_cons (p : String × Finset Rule) (t : Catalog) (k : String)
    (v : Finset Rule) :
    dictInsert (p :: t) k v = if p.1 = k then (k, v) :: t else p :: dictInsert t k v := rfl

theorem lookupD_dictInsert (c : Catalog) (k : String) (v : Finset Rule) :
    lookupD (dictInsert c k v) k = some v := by
  induction c with
  | nil => simp [dictInsert, lookupD_cons]
  | cons p t ih =>
    rw [dictInsert_cons]
    by_cases hp : p.1 = k
    · rw [if_pos hp, lookupD_cons]
      simp
    · rw [if_neg hp, lookupD_cons, if_neg hp, ih]

theorem dictInsert_fresh {c : Catalog} {k : String}
    (hk : k ∉ c.map (fun p => p.1)) (v : Finset Rule) :
    dictInsert c k v = c ++ [(k, v)] := by
  induction c with
  | nil => rfl
  | cons p t ih =>
    have hp : p.1 ≠ k := by
      intro h
      exact hk (by simp [h])
    have ht : k ∉ t.map (fun q => q.1) := fun h => hk (by simp [h])
    rw [dictInsert_cons, if_neg hp, ih ht]
    rfl

theorem keys_dictInsert (c : Catalog) (k : String) (v : Finset Rule) :
    (dictInsert c k v).map (fun p => p.1) =
      if k ∈ c.map (fun p => p.1) then c.map (fun p => p.1)
      else c.map (fun p => p.1) ++ [k] := by
  induction c with
  | nil => simp [dictInsert]
  | cons p t ih =>
    rw [dictInsert_cons]
    by_cases hp : p.1 = k
    · simp [hp]
    · rw [if_neg hp, List.map_cons, List.map_cons, ih]
      by_cases hk : k ∈ t.map (fun q => q.1)
      · rw [if_pos hk, if_pos (by simp [hk])]
      · rw [if_neg hk, if_neg (by simp [Ne.symm hp, hk])]
        rfl

theorem nodup_keys_dictInsert {c : Catalog} (h : (c.map (fun p => p.1)).Nodup)
    (k : String) (v : Finset Rule) :
    ((dictInsert c k v).map (fun p => p.1)).Nodup := by
  rw [keys_dictInsert]
  by_cases hk : k ∈ c.map (fun p => p.1)
  · simpa [hk] using h
  · rw [if_neg hk]
    rw [List.nodup_append]
    refine ⟨h, List.nodup_singleton k, ?_⟩
    intro a ha hb
    rw [List.mem_singleton] at hb
    subst hb
    exact hk ha

theorem mem_dictInsert_self {c : Catalog} (h : (c.map (fun p => p.1)).Nodup)
    {k : String} {v S : Finset Rule} (hmem : (k, S) ∈ dictInsert c k v) : S = v := by
  induction c with
  | nil =>
    rcases List.mem_singleton.mp hmem with h1
    injection h1 with _ h2
  | cons p t ih =>
    rw [dictInsert_cons] at hmem
    have hnd : ((t.map (fun q => q.1)).Nodup) := (List.nodup_cons.mp (by simpa using h)).2
    have hhead : p.1 ∉ t.map (fun q => q.1) := (List.nodup_cons.mp (by simpa using h)).1
    by_cases hp : p.1 = k
    · rw [if_pos hp] at hmem
      rcases List.mem_cons.mp hmem with h1 | h1
      · injection h1 with _ h2
      · exfalso
        apply hhead
        rw [hp]
        exact List.mem_map.mpr ⟨(k, S), h1, rfl⟩
    · rw [if_neg hp] at hmem
      rcases List.mem_cons.mp hmem with h1 | h1
      · exfalso
        exact hp (by rw [← h1])
      · exact ih hnd h1

/-! ### Union lemmas -/

theorem unionList_cons (s : Finset Rule) (t : List (Finset Rule)) :
    unionList (s :: t) = s ∪ unionList t := rfl

theorem unionList_append_single (m : List (Finset Rule)) (v : Finset Rule) :
    unionList (m ++ [v]) = unionList m ∪ v := by
  induction m with
  | nil => simp [unionList]
  | cons s t ih =>
    rw [List.cons_append, unionList_cons, unionList_cons, ih, Finset.union_assoc]

theorem unionOfGroups_append_single (c : Catalog) (k : String) (v : Finset Rule) :
    unionOfGroups (c ++ [(k, v)]) = unionOfGroups c ∪ v := by
  unfold unionOfGroups
  rw [List.map_append]
  exact unionList_append_single _ v

/-! ### Invariants of the manifest loop -/

theorem stepRun_pair_some {fetch : String → Option String} {st : Catalog × Finset Rule}
    {line name url content : String} (hm : manifestLine line = LineOutcome.pair name url)
    (hf : fetch url = some content) :
    stepRun fetch st line =
      (dictInsert st.1 name (parse_blocklist content), st.2 ∪ parse_blocklist content) := by
  simp only [stepRun, hm, hf]

theorem stepRun_skip {fetch : String → Option String} {st : Catalog × Finset Rule}
    {line : String}
    (h : (manifestLine line = LineOutcome.skipBlank ∨ manifestLine line = LineOutcome.skipWarn) ∨
      ∃ name url, manifestLine line = LineOutcome.pair name url ∧ fetch url = none) :
    stepRun fetch st line = st := by
  rcases h with (h1 | h1) | ⟨name, url, h1, h2⟩ <;> simp only [stepRun, h1]
  simp only [h2]

theorem parsedSets_cons_pair {fetch : String → Option String}
    {line name url content : String} (rest : List String)
    (hm : manifestLine line = LineOutcome.pair name url) (hf : fetch url = some content) :
    parsedSets fetch (line :: rest) = parse_blocklist content :: parsedSets fetch rest := by
  unfold parsedSets
  rw [List.filterMap_cons]
  simp [hm, hf]

theorem parsedSets_cons_skip {fetch : String → Option String} {line : String}
    (rest : List String)
    (h : (manifestLine line = LineOutcome.skipBlank ∨ manifestLine line = LineOutcome.skipWarn) ∨
      ∃ name url, manifestLine line = LineOutcome.pair name url ∧ fetch url = none) :
    parsedSets fetch (line :: rest) = parsedSets fetch rest := by
  unfold parsedSets
  rw [List.filterMap_cons]
  rcases h with (h1 | h1) | ⟨name, url, h1, h2⟩ <;> simp [h1]
  simp [h2]

theorem namesProcessed_cons_pair {fetch : String → Option String}
    {line name url content : String} (rest : List String)
    (hm : manifestLine line = LineOutcome.pair name url) (hf : fetch url = some content) :
    namesProcessed fetch (line :: rest) = name :: namesProcessed fetch rest := by
  unfold namesProcessed
  rw [List.filterMap_cons]
  simp [hm, hf]

theorem namesProcessed_cons_skip {fetch : String → Option String} {line : String}
    (rest : List String)
    (h : (manifestLine line = LineOutcome.skipBlank ∨ manifestLine line = LineOutcome.skipWarn) ∨
      ∃ name url, manifestLine line = LineOutcome.pair name url ∧ fetch url = none) :
    namesProcessed fetch (line :: rest) = namesProcessed fetch rest := by
  unfold namesProcessed
  rw [List.filterMap_cons]
  rcases h with (h1 | h1) | ⟨name, url, h1, h2⟩ <;> simp [h1]
  simp [h2]

theorem foldl_stepRun_all (fetch : String → Option String) :
    ∀ (lines : List String) (st : Catalog × Finset Rule),
      (lines.foldl (stepRun fetch) st).2 = st.2 ∪ unionList (parsedSets fetch lines) := by
  intro lines
  induction lines with
  | nil =>
    intro st
    simp [parsedSets, unionList]
  | cons line rest ih =>
    intro st
    rw [List.foldl_cons]
    cases hm : manifestLine line with
    | pair name url =>
      cases hf : fetch url with
      | some content =>
        rw [stepRun_pair_some hm hf, ih, parsedSets_cons_pair rest hm hf, unionList_cons]
        simp [Finset.union_assoc]
      | none =>
        rw [stepRun_skip (Or.inr ⟨name, url, hm, hf⟩), ih,
          parsedSets_cons_skip rest (Or.inr ⟨name, url, hm, hf⟩)]
    | skipBlank =>
      rw [stepRun_skip (Or.inl (Or.inl hm)), ih, parsedSets_cons_skip rest (Or.inl (Or.inl hm))]
    | skipWarn =>
      rw [stepRun_skip (Or.inl (Or.inr hm)), ih, parsedSets_cons_skip rest (Or.inl (Or.inr hm))]

theorem processManifest_all (fetch : String → Option String) (lines : List String) :
    (processManifest fetch lines).2 = unionList (parsedSets fetch lines) := by
  unfold processManifest
  rw [foldl_stepRun_all]
  exact Finset.empty_union _

theorem foldl_stepRun_nodup_union (fetch : String → Option String) :
    ∀ (lines : List String) (st : Catalog × Finset Rule),
      ((st.1.map (fun p => p.1)) ++ namesProcessed fetch lines).Nodup →
      unionOfGroups st.1 = st.2 →
      unionOfGroups (lines.foldl (stepRun fetch) st).1 = (lines.foldl (stepRun fetch) st).2 := by
  intro lines
  induction lines with
  | nil =>
    intro st _ hu
    simpa using hu
  | cons line rest ih =>
    intro st hnd hu
    rw [List.foldl_cons]
    cases hm : manifestLine line with
    | pair name url =>
      cases hf : fetch url with
      | some content =>
        rw [stepRun_pair_some hm hf]
        have hnames : namesProcessed fetch (line :: rest) = name :: namesProcessed fetch rest :=
          namesProcessed_cons_pair rest hm hf
        rw [hnames] at hnd
        have hfreshname : name ∉ st.1.map (fun p => p.1) := by
          rcases (List.nodup_append.mp hnd) with ⟨_, _, hdisj⟩
          intro hmem
          exact hdisj hmem (by simp)
        have hins : dictInsert st.1 name (parse_blocklist content) =
            st.1 ++ [(name, parse_blocklist content)] :=
          dictInsert_fresh hfreshname _
        apply ih
        · rw [hins, List.map_append]
          have : (st.1.map (fun p => p.1) ++ [name]) ++ namesProcessed fetch rest =
              st.1.map (fun p => p.1) ++ (name :: namesProcessed fetch rest) := by
            rw [List.append_assoc]
            rfl
          simpa [this] using hnd
        · rw [hins, unionOfGroups_append_single, hu]
      | none =>
        rw [stepRun_skip (Or.inr ⟨name, url, hm, hf⟩)]
        apply ih
        · rwa [namesProcessed_cons_skip rest (Or.inr ⟨name, url, hm, hf⟩)] at hnd
        · exact hu
    | skipBlank =>
      rw [stepRun_skip (Or.inl (Or.inl hm))]
      apply ih
      · rwa [namesProcessed_cons_skip rest (Or.inl (Or.inl hm))] at hnd
      · exact hu
    | skipWarn =>
      rw [stepRun_skip (Or.inl (Or.inr hm))]
      apply ih
      · rwa [namesProcessed_cons_skip rest (Or.inl (Or.inr hm))] at hnd
      · exact hu

theorem foldl_stepRun_keys_nodup (fetch : String → Option String) :
    ∀ (lines : List String) (st : Catalog × Finset Rule),
      ((st.1.map (fun p => p.1)).Nodup) →
      (((lines.foldl (stepRun fetch) st).1.map (fun p => p.1)).Nodup) := by
  intro lines
  induction lines with
  | nil => intro st h; simpa using h
  | cons line rest ih =>
    intro st h
    rw [List.foldl_cons]
    cases hm : manifestLine line with
    | pair name url =>
      cases hf : fetch url with
      | some content =>
        rw [stepRun_pair_some hm hf]
        exact ih _ (nodup_keys_dictInsert h name _)
      | none =>
        rw [stepRun_skip (Or.inr ⟨name, url, hm, hf⟩)]
        exact ih st h
    | skipBlank =>
      rw [stepRun_skip (Or.inl (Or.inl hm))]
      exact ih st h
    | skipWarn =>
      rw [stepRun_skip (Or.inl (Or.inr hm))]
      exact ih st h

theorem processManifest_keys_nodup (fetch : String → Option String) (lines : List String) :
    (((processManifest fetch lines).1.map (fun p => p.1)).Nodup) := by
  unfold processManifest
  exact foldl_stepRun_keys_nodup fetch lines ([], ∅) (by simp)

/-! ### The label order and assembly determinism -/

theorem strLeb_cons (a b : Char) (as bs : List Char) :
    strLeb (a :: as) (b :: bs) =
      if a = b then strLeb as bs else decide (a.toNat < b.toNat) := rfl

theorem strLeb_total : ∀ x y : List Char, strLeb x y = true ∨ strLeb y x = true := by
  intro x
  induction x with
  | nil => intro y; exact Or.inl rfl
  | cons a as ih =>
    intro y
    cases y with
    | nil => exact Or.inr rfl
    | cons b bs =>
      rw [strLeb_cons, strLeb_cons]
      by_cases hab : a = b
      · subst hab
        rw [if_pos rfl, if_pos rfl]
        exact ih bs
      · rw [if_neg hab, if_neg (Ne.symm hab)]
        by_cases hlt : a.toNat < b.toNat
        · exact Or.inl (by simpa using hlt)
        · have hne : a.toNat ≠ b.toNat := fun h => hab (charToNat_inj h)
          have : b.toNat < a.toNat := by omega
          exact Or.inr (by simpa using this)

theorem strLeb_trans :
    ∀ x y z : List Char, strLeb x y = true → strLeb y z = true → strLeb x z = true := by
  intro x
  induction x with
  | nil => intro y z _ _; rfl
  | cons a as ih =>
    intro y z hxy hyz
    cases y with
    | nil => cases hxy
    | cons b bs =>
      cases z with
      | nil => cases hyz
      | cons c cs =>
        rw [strLeb_cons] at hxy hyz ⊢
        by_cases hab : a = b
        · subst hab
          rw [if_pos rfl] at hxy
          by_cases hbc : a = c
          · subst hbc
            rw [if_pos rfl] at hyz ⊢
            exact ih bs cs hxy hyz
          · rw [if_neg hbc] at hyz ⊢
            exact hyz
        · rw [if_neg hab] at hxy
          have hlt1 : a.toNat < b.toNat := by simpa using hxy
          by_cases hbc : b = c
          · subst hbc
            rw [if_neg hab]
            simpa using hlt1
          · rw [if_neg hbc] at hyz
            have hlt2 : b.toNat < c.toNat := by simpa using hyz
            have hac : a ≠ c := by
              intro h
              subst h
              omega
            rw [if_neg hac]
            simp only [decide_eq_true_eq]
            omega

theorem strLeb_antisymm :
    ∀ x y : List Char, strLeb x y = true → strLeb y x = true → x = y := by
  intro x
  induction x with
  | nil =>
    intro y _ hyx
    cases y with
    | nil => rfl
    | cons b bs => cases hyx
  | cons a as ih =>
    intro y hxy hyx
    cases y with
    | nil => cases hxy
    | cons b bs =>
      rw [strLeb_cons] at hxy hyx
      by_cases hab : a = b
      · subst hab
        rw [if_pos rfl] at hxy hyx
        rw [ih bs hxy hyx]
      · rw [if_neg hab] at hxy
        rw [if_neg (Ne.symm hab)] at hyx
        have h1 : a.toNat < b.toNat := by simpa using hxy
        have h2 : b.toNat < a.toNat := by simpa using hyx
        omega

instance : IsTotal OutputGroup groupLe := ⟨fun _ _ => strLeb_total _ _⟩

instance : IsTrans OutputGroup groupLe := ⟨fun _ _ _ => strLeb_trans _ _ _⟩

/-- Strict version of the label order, used to show that a sorted list with
pairwise-distinct labels is unique. -/
def groupLt (g h : OutputGroup) : Prop := groupLe g h ∧ g.label ≠ h.label

theorem label_eq_of_le_le {a b : OutputGroup} (h1 : groupLe a b) (h2 : groupLe b a) :
    a.label = b.label := by
  have h := strLeb_antisymm _ _ h1 h2
  calc a.label = String.mk a.label.toList := rfl
  _ = String.mk b.label.toList := by rw [h]
  _ = b.label := rfl

instance : IsAntisymm OutputGroup groupLt :=
  ⟨fun _ _ h1 h2 => absurd (label_eq_of_le_le h1.1 h2.1) h1.2⟩

theorem nodup_map_pairwise {α β : Type} {f : α → β} {l : List α}
    (h : (l.map f).Nodup) : l.Pairwise (fun a b => f a ≠ f b) := by
  induction l with
  | nil => exact List.Pairwise.nil
  | cons a t ih =>
    rw [List.map_cons, List.nodup_cons] at h
    refine List.Pairwise.cons ?_ (ih h.2)
    intro b hb heq
    exact h.1 (by rw [heq]; exact List.mem_map.mpr ⟨b, hb, rfl⟩)

theorem assemble_labels (c : Catalog) :
    ((c.map toGroup).map (fun g => g.label)) = c.map (fun p => pyUpper p.1) := by
  rw [List.map_map]
  rfl

theorem assemble_det {c1 c2 : Catalog} (hperm : List.Perm c1 c2)
    (hnd : (c1.map (fun p => pyUpper p.1)).Nodup) :
    assemble c1 = assemble c2 := by
  unfold assemble
  have hmapperm : List.Perm (c1.map toGroup) (c2.map toGroup) := hperm.map toGroup
  have hp1 : List.Perm (List.insertionSort groupLe (c1.map toGroup))
      (List.insertionSort groupLe (c2.map toGroup)) :=
    ((List.perm_insertionSort groupLe _).trans hmapperm).trans
      (List.perm_insertionSort groupLe _).symm
  have hlab1 : ((c1.map toGroup).map (fun g => g.label)).Nodup := by
    rw [assemble_labels]
    exact hnd
  have hlab2 : ((c2.map toGroup).map (fun g => g.label)).Nodup :=
    (hmapperm.map (fun g => g.label)).nodup_iff.mp hlab1
  have hndlab1 :
      ((List.insertionSort groupLe (c1.map toGroup)).map (fun g => g.label)).Nodup :=
    ((List.perm_insertionSort groupLe (c1.map toGroup)).map (fun g => g.label)).nodup_iff.mpr
      hlab1
  have hndlab2 :
      ((List.insertionSort groupLe (c2.map toGroup)).map (fun g => g.label)).Nodup :=
    ((List.perm_insertionSort groupLe (c2.map toGroup)).map (fun g => g.label)).nodup_iff.mpr
      hlab2
  have hpair1 : (List.insertionSort groupLe (c1.map toGroup)).Pairwise groupLt :=
    ((List.sorted_insertionSort groupLe (c1.map toGroup)).and
      (nodup_map_pairwise hndlab1)).imp (fun h => ⟨h.1, h.2⟩)
  have hpair2 : (List.insertionSort groupLe (c2.map toGroup)).Pairwise groupLt :=
    ((List.sorted_insertionSort groupLe (c2.map toGroup)).and
      (nodup_map_pairwise hndlab2)).imp (fun h => ⟨h.1, h.2⟩)
  exact List.eq_of_perm_of_sorted (r := groupLt) hp1 hpair1 hpair2

/-! ### First-comma split lemmas -/

theorem splitCommaOnce_none {cs : List Char} (h : ',' ∉ cs) : splitCommaOnce cs = none := by
  induction cs with
  | nil => rfl
  | cons c t ih =>
    have hc : ¬ c = ',' := fun hx => h (by simp [hx])
    have ht : ',' ∉ t := fun hx => h (by simp [hx])
    simp only [splitCommaOnce, if_neg hc, ih ht]

theorem splitCommaOnce_first {a b : List Char} (ha : ',' ∉ a) :
    splitCommaOnce (a ++ ',' :: b) = some (a, b) := by
  induction a with
  | nil => simp [splitCommaOnce]
  | cons x a' ih =>
    have hx : ¬ x = ',' := fun h => ha (by simp [h])
    have ha' : ',' ∉ a' := fun h => ha (by simp [h])
    rw [List.cons_append]
    simp only [splitCommaOnce, if_neg hx, ih ha']

theorem exists_first_comma {cs : List Char} (h : ',' ∈ cs) :
    ∃ a b : List Char, cs = a ++ ',' :: b ∧ ',' ∉ a := by
  induction cs with
  | nil => cases h
  | cons c t ih =>
    by_cases hc : c = ','
    · subst hc
      exact ⟨[], t, rfl, by simp⟩
    · have ht : ',' ∈ t := by
        rcases List.mem_cons.mp h with h1 | h1
        · exact absurd h1.symm hc
        · exact h1
      obtain ⟨a, b, he, ha⟩ := ih ht
      refine ⟨c :: a, b, by rw [he]; rfl, ?_⟩
      intro hx
      rcases List.mem_cons.mp hx with h1 | h1
      · exact hc h1.symm
      · exact ha h1

/-! ### Claims about the classifier and parser -/

/-- Claim C2: the classifier tries the hosts-file, ad-blocking and raw-domain
matchers in that fixed priority order with the first match winning
(`0.0.0.0 ads.example.com` is claimed by the hosts dialect even though its
first token also satisfies the raw-domain pattern); `0.0.0.0 ads.example.com`
yields `("full", "ads.example.com")` (schema kind `Full`),
`||tracker.example.net^` yields `("domain", "tracker.example.net")` (schema
kind `RootDomain`), `plain-domain.org` yields
`("domain", "plain-domain.org")`, a line blank after trimming or starting
with `#`, `!` or `/` yields no rule, and `http://example.com/path` yields no
rule. -/
theorem claim_C2_classifier :
    (∀ line : String,
      pyStrip line = "" ∨ isCommentHead (pyStrip line).toList = true →
        classify_line line = none) ∧
    classify_line "0.0.0.0 ads.example.com" = some ("full", "ads.example.com") ∧
    kindCode "full" = RuleKind.Full ∧
    classify_line "||tracker.example.net^" = some ("domain", "tracker.example.net") ∧
    kindCode "domain" = RuleKind.RootDomain ∧
    classify_line "plain-domain.org" = some ("domain", "plain-domain.org") ∧
    rawDomainMatch "0.0.0.0" = true ∧
    classify_line "http://example.com/path" = none := by
  refine ⟨?_, by decide, by decide, by decide, by decide, by decide, by decide, by decide⟩
  intro line h
  rcases h with h | h
  · simp [classify_line, h]
  · simp only [classify_line]
    by_cases h0 : pyStrip line = ""
    · simp [h0]
    · rw [if_neg h0, if_pos h]

theorem claim_C2_classifier_witness : classify_line " # x" = none :=
  claim_C2_classifier.1 " # x" (Or.inr (by decide))

/-- Claim C3: on a non-blank, non-comment line that matches neither the
hosts-file nor the ad-blocking dialect, the fallback looks only at the first
whitespace-separated token (trailing tokens are irrelevant) and produces
`("domain", lowercased token)` exactly when the token has the claimed shape:
word/dot/hyphen characters only, splitting as nonempty front `++ "." ++`
nonempty all-word final label (at least `label.tld`, no scheme, no path);
otherwise the line yields no rule. -/
theorem claim_C3_raw_fallback :
    ∀ line : String,
      pyStrip line ≠ "" →
      isCommentHead (pyStrip line).toList = false →
      hostsMatch (pyStrip line) = none →
      adguardMatch (pyStrip line) = none →
      ∀ (t : String) (rest : List String), pySplitWs (pyStrip line) = t :: rest →
        (specRawShape t → classify_line line = some ("domain", pyLower t)) ∧
        (¬ specRawShape t → classify_line line = none) := by
  intro line h1 h2 h3 h4 t rest h5
  have hcl : classify_line line =
      (if rawDomainMatch t = true then some (("domain", pyLower t) : Rule) else none) := by
    simp only [classify_line]
    rw [if_neg h1]
    rw [if_neg (by rw [h2]; exact Bool.false_ne_true)]
    simp only [h3, h4, h5]
  constructor
  · intro hshape
    rw [hcl, if_pos ((rawDomainMatch_iff t).mpr hshape)]
  · intro hshape
    rw [hcl, if_neg (fun hb => hshape ((rawDomainMatch_iff t).mp hb))]

theorem claim_C3_raw_fallback_witness :
    classify_line "good.com extra" = some ("domain", "good.com") := by
  have hshape : specRawShape "good.com" :=
    ⟨by decide, ['g', 'o', 'o', 'd'], ['c', 'o', 'm'], by decide, by decide, by decide,
      by decide⟩
  rw [(claim_C3_raw_fallback "good.com extra" (by decide) (by decide) (by decide) (by decide)
    "good.com" ["extra"] (by decide)).1 hshape]
  decide

/-- Claim C5: a line repeated verbatim more than once contributes exactly one
rule: the parse of a document with a duplicated line equals the parse with
the duplicate removed, and the rule extracted from that line occurs in the
resulting set with multiplicity exactly one. -/
theorem claim_C5_dedup :
    ∀ (content : String) (ls1 ls2 ls3 : List String) (l : String),
      splitlines content = ls1 ++ l :: (ls2 ++ l :: ls3) →
      parse_blocklist content = rulesOfLines (ls1 ++ l :: (ls2 ++ ls3)) ∧
      ∀ r : Rule, classify_line l = some r →
        r ∈ parse_blocklist content ∧
        Multiset.count r (parse_blocklist content).val = 1 := by
  intro content ls1 ls2 ls3 l hs
  constructor
  · rw [parse_eq, hs]
    unfold rulesOfLines
    apply Finset.ext
    intro r
    simp only [List.mem_toFinset, List.mem_filterMap, List.mem_append, List.mem_cons]
    constructor
    · rintro ⟨a, ha, hcl⟩
      refine ⟨a, ?_, hcl⟩
      tauto
    · rintro ⟨a, ha, hcl⟩
      refine ⟨a, ?_, hcl⟩
      tauto
  · intro r hr
    have hmem : r ∈ parse_blocklist content := by
      rw [mem_parse]
      refine ⟨l, ?_, hr⟩
      rw [hs]
      simp
    exact ⟨hmem,
      Multiset.count_eq_one_of_mem (parse_blocklist content).nodup (Finset.mem_def.mp hmem)⟩

theorem claim_C5_dedup_witness :
    parse_blocklist "a.com\nb.com\na.com" = rulesOfLines ([] ++ "a.com" :: (["b.com"] ++ [])) ∧
      ("domain", "a.com") ∈ parse_blocklist "a.com\nb.com\na.com" ∧
      Multiset.count (("domain", "a.com") : Rule) (parse_blocklist "a.com\nb.com\na.com").val
        = 1 := by
  have h := claim_C5_dedup "a.com\nb.com\na.com" [] ["b.com"] [] "a.com" (by decide)
  exact ⟨h.1, (h.2 ("domain", "a.com") (by decide)).1, (h.2 ("domain", "a.com") (by decide)).2⟩

/-- Claim C6: every rule a parse produces has a domain that is lower-cased
(lower-casing it again changes nothing), nonempty, and free of surrounding
whitespace (stripping it changes nothing); and the two lines
`WWW.Example.COM` and `www.example.com` in one document collapse to the
single rule `("domain", "www.example.com")`. -/
theorem claim_C6_normalization :
    (∀ (content : String) (r : Rule), r ∈ parse_blocklist content →
      pyLower r.2 = r.2 ∧ r.2 ≠ "" ∧ pyStrip r.2 = r.2) ∧
    parse_blocklist "WWW.Example.COM\nwww.example.com" = {("domain", "www.example.com")} := by
  refine ⟨?_, by decide⟩
  intro content r hr
  obtain ⟨line, _, hline⟩ := mem_parse.mp hr
  exact classify_rule_props hline

theorem claim_C6_normalization_witness :
    pyLower "www.example.com" = "www.example.com" ∧
      ("www.example.com" : String) ≠ "" ∧
      pyStrip "www.example.com" = "www.example.com" :=
  claim_C6_normalization.1 "www.example.com" ("domain", "www.example.com") (by decide)

/-- Claim C7: the parser is total — it is a function returning a rule set for
every input string, with no failure path — and an unrecognized line is
silently dropped: removing a line the classifier rejects does not change the
parse result at all. -/
theorem claim_C7_total_silent_drop :
    ∀ (content : String) (ls1 ls2 : List String) (l : String),
      splitlines content = ls1 ++ l :: ls2 →
      classify_line l = none →
      parse_blocklist content = rulesOfLines (ls1 ++ ls2) := by
  intro content ls1 ls2 l hs hc
  rw [parse_eq, hs]
  unfold rulesOfLines
  congr 1
  simp [List.filterMap_append, List.filterMap_cons, hc]

theorem claim_C7_total_silent_drop_witness :
    parse_blocklist "a.com\nhttp://example.com/path" = rulesOfLines (["a.com"] ++ []) :=
  claim_C7_total_silent_drop "a.com\nhttp://example.com/path" ["a.com"] []
    "http://example.com/path" (by decide) (by decide)

/-! ### Claims about the aggregator, sealing and assembly -/

/-- Claim C1 (counterexample): with the same source name `A` processed twice
(first parse `{a.com}`, then `{b.com}`), the sealed combined group holds
`{a.com, b.com}` — the incrementally accumulated `all_rules` — while the
union of the groups present in the catalog at finalization (after last write
wins) is only `{b.com}`; the claim's "union of the surviving groups" reading
is therefore false on the code. -/
theorem claim_C1_counterexample :
    lookupD
        (sealCatalog
          (processManifest
            (fun u => if u = "u1" then some "a.com" else
              if u = "u2" then some "b.com" else none) ["A,u1", "A,u2"]).1
          (processManifest
            (fun u => if u = "u1" then some "a.com" else
              if u = "u2" then some "b.com" else none) ["A,u1", "A,u2"]).2)
        "blocklists-all"
      = some {("domain", "a.com"), ("domain", "b.com")} ∧
    unionOfGroups
        (processManifest
          (fun u => if u = "u1" then some "a.com" else
            if u = "u2" then some "b.com" else none) ["A,u1", "A,u2"]).1
      = {("domain", "b.com")} ∧
    ({("domain", "a.com"), ("domain", "b.com")} : Finset Rule) ≠ {("domain", "b.com")} :=
  ⟨by decide, by decide, by decide⟩

/-- Claim C1 (amended): the sealed combined group's rule set is exactly the
union of the rule sets of all successfully fetched-and-parsed source
insertions, in processing order — including insertions later overwritten by
a repeated name; when the processed source names are pairwise distinct this
equals the union of the surviving catalog groups' rule sets, as the original
claim states. -/
theorem claim_C1_amended (fetch : String → Option String) (lines : List String) :
    (processManifest fetch lines).2 = unionList (parsedSets fetch lines) ∧
    ((processManifest fetch lines).2 ≠ ∅ →
      lookupD (sealCatalog (processManifest fetch lines).1 (processManifest fetch lines).2)
          "blocklists-all" = some (unionList (parsedSets fetch lines))) ∧
    ((namesProcessed fetch lines).Nodup →
      unionOfGroups (processManifest fetch lines).1 = (processManifest fetch lines).2) := by
  refine ⟨processManifest_all fetch lines, ?_, ?_⟩
  · intro hne
    unfold sealCatalog
    rw [if_neg hne, lookupD_dictInsert, processManifest_all]
  · intro hnd
    unfold processManifest
    exact foldl_stepRun_nodup_union fetch lines ([], ∅) (by simpa using hnd) rfl

theorem claim_C1_amended_witness :
    lookupD
        (sealCatalog
          (processManifest
            (fun u => if u = "u1" then some "a.com" else
              if u = "u2" then some "b.com" else none) ["A,u1", "B,u2"]).1
          (processManifest
            (fun u => if u = "u1" then some "a.com" else
              if u = "u2" then some "b.com" else none) ["A,u1", "B,u2"]).2)
        "blocklists-all"
      = some (unionList (parsedSets
          (fun u => if u = "u1" then some "a.com" else
            if u = "u2" then some "b.com" else none) ["A,u1", "B,u2"])) ∧
    unionOfGroups
        (processManifest
          (fun u => if u = "u1" then some "a.com" else
            if u = "u2" then some "b.com" else none) ["A,u1", "B,u2"]).1
      = (processManifest
          (fun u => if u = "u1" then some "a.com" else
            if u = "u2" then some "b.com" else none) ["A,u1", "B,u2"]).2 := by
  have h := claim_C1_amended
    (fun u => if u = "u1" then some "a.com" else if u = "u2" then some "b.com" else none)
    ["A,u1", "B,u2"]
  exact ⟨h.2.1 (by decide), h.2.2 (by decide)⟩

/-- Claim C4 (counterexample): two catalogs holding the same groups (they are
permutations of each other, with distinct names `a` and `A`) assemble to
different ordered outputs, because both labels upper-case to `A` and the
stable sort keeps equal labels in insertion order; group order therefore
does depend on insertion order when labels collide. -/
theorem claim_C4_counterexample :
    List.Perm [("a", ({("domain", "x.com")} : Finset Rule)), ("A", {("domain", "y.com")})]
      [("A", ({("domain", "y.com")} : Finset Rule)), ("a", {("domain", "x.com")})] ∧
    assemble [("a", ({("domain", "x.com")} : Finset Rule)), ("A", {("domain", "y.com")})] ≠
      assemble [("A", ({("domain", "y.com")} : Finset Rule)), ("a", {("domain", "x.com")})] :=
  ⟨by decide, by decide⟩

/-- Claim C4 (amended): the assembled output is sorted by upper-cased label
in ascending code-point order, and whenever the upper-cased labels are
pairwise distinct, assembling catalogs with the same groups inserted in
different orders yields identical output — order depends only on label
content; e.g. sources `A` and `B` plus the combined list assemble to labels
`A`, `B`, `BLOCKLISTS-ALL` in that order. -/
theorem claim_C4_amended :
    (∀ c1 c2 : Catalog, List.Perm c1 c2 → (c1.map (fun p => pyUpper p.1)).Nodup →
      assemble c1 = assemble c2) ∧
    (assemble [("B", ({("domain", "d2.com")} : Finset Rule)),
        ("blocklists-all", {("domain", "d1.com"), ("domain", "d2.com")}),
        ("A", {("domain", "d1.com")})]).map (fun g => g.label)
      = ["A", "B", "BLOCKLISTS-ALL"] := by
  refine ⟨?_, by decide⟩
  intro c1 c2 hp hnd
  exact assemble_det hp hnd

theorem claim_C4_amended_witness :
    assemble [("A", ({("domain", "x.com")} : Finset Rule)), ("B", {("domain", "y.com")})] =
      assemble [("B", ({("domain", "y.com")} : Finset Rule)), ("A", {("domain", "x.com")})] :=
  claim_C4_amended.1 _ _ (by decide) (by decide)

/-- Claim C8 (counterexample): a manifest source named exactly
`blocklists-all` whose content parses to no rules leaves `all_rules` empty,
so sealing adds no combined entry at all and the source's own group — not an
overwritten combined one — survives in the final catalog; the claimed
unconditional overwrite at sealing time is therefore false on the code. -/
theorem claim_C8_counterexample :
    manifestLine "blocklists-all,u" = LineOutcome.pair "blocklists-all" "u" ∧
    sealCatalog
        (processManifest (fun u => if u = "u" then some "# nothing" else none)
          ["blocklists-all,u"]).1
        (processManifest (fun u => if u = "u" then some "# nothing" else none)
          ["blocklists-all,u"]).2
      = [("blocklists-all", (∅ : Finset Rule))] :=
  ⟨by decide, by decide⟩

/-- Claim C8 (amended): whenever at least one rule was extracted overall (so
the combined entry is created), sealing maps `blocklists-all` to the
combined union — silently overwriting any manifest-supplied group of that
exact name, by last-write-wins dict assignment — and the only group named
`blocklists-all` in the sealed catalog carries the combined union. -/
theorem claim_C8_amended (fetch : String → Option String) (lines : List String) :
    (processManifest fetch lines).2 ≠ ∅ →
      lookupD (sealCatalog (processManifest fetch lines).1 (processManifest fetch lines).2)
          "blocklists-all" = some (processManifest fetch lines).2 ∧
      ∀ S : Finset Rule,
        ("blocklists-all", S) ∈
            sealCatalog (processManifest fetch lines).1 (processManifest fetch lines).2 →
          S = (processManifest fetch lines).2 := by
  intro hne
  unfold sealCatalog
  rw [if_neg hne]
  refine ⟨lookupD_dictInsert _ _ _, ?_⟩
  intro S hS
  exact mem_dictInsert_self (processManifest_keys_nodup fetch lines) hS

theorem claim_C8_amended_witness :
    lookupD
        (sealCatalog
          (processManifest
            (fun u => if u = "u" then some "x.com" else
              if u = "v" then some "y.com" else none) ["blocklists-all,u", "B,v"]).1
          (processManifest
            (fun u => if u = "u" then some "x.com" else
              if u = "v" then some "y.com" else none) ["blocklists-all,u", "B,v"]).2)
        "blocklists-all"
      = some (processManifest
          (fun u => if u = "u" then some "x.com" else
            if u = "v" then some "y.com" else none) ["blocklists-all,u", "B,v"]).2 :=
  (claim_C8_amended
    (fun u => if u = "u" then some "x.com" else if u = "v" then some "y.com" else none)
    ["blocklists-all,u", "B,v"] (by decide)).1

/-- Claim C9 (counterexample): the manifest line `a,b,c` is non-blank and not
a comment and splits into the three comma-separated fields `a`, `b`, `c` —
other than exactly two — yet the code does not skip it: `split(",", 1)`
splits only at the first comma, so the line is processed as the pair
`("a", "b,c")`. -/
theorem claim_C9_counterexample :
    pyStrip "a,b,c" ≠ "" ∧
    (pyStrip "a,b,c").toList.head? ≠ some '#' ∧
    commaFields (pyStrip "a,b,c") = ["a", "b", "c"] ∧
    (commaFields (pyStrip "a,b,c")).length ≠ 2 ∧
    manifestLine "a,b,c" = LineOutcome.pair "a" "b,c" := by
  decide

/-- Claim C9 (amended): a non-blank, non-comment manifest line is split at
its FIRST comma into at most two fields, each stripped of surrounding
whitespace; a line with no comma is skipped with a warning and the run
continues with the remaining lines unchanged, while a line containing a
comma yields the pair (text before the first comma, everything after it) —
in particular a line with several commas is processed, not skipped. -/
theorem claim_C9_amended :
    ∀ line : String,
      pyStrip line ≠ "" →
      (pyStrip line).toList.head? ≠ some '#' →
      ((',' ∉ (pyStrip line).toList →
          manifestLine line = LineOutcome.skipWarn ∧
          ∀ (fetch : String → Option String) (st : Catalog × Finset Rule)
            (rest : List String),
            (line :: rest).foldl (stepRun fetch) st = rest.foldl (stepRun fetch) st) ∧
        (',' ∈ (pyStrip line).toList →
          ∃ a b : List Char,
            (pyStrip line).toList = a ++ ',' :: b ∧ ',' ∉ a ∧
            manifestLine line =
              LineOutcome.pair (pyStrip (String.mk a)) (pyStrip (String.mk b)))) := by
  intro line h1 h2
  have hml : manifestLine line =
      (match splitCommaOnce (pyStrip line).toList with
        | none => LineOutcome.skipWarn
        | some p => LineOutcome.pair (pyStrip (String.mk p.1)) (pyStrip (String.mk p.2))) := by
    simp only [manifestLine]
    rw [if_neg h1, if_neg h2]
  constructor
  · intro hnc
    have hsc := splitCommaOnce_none hnc
    constructor
    · rw [hml, hsc]
    · intro fetch st rest
      rw [List.foldl_cons, stepRun_skip (Or.inl (Or.inr (by rw [hml, hsc])))]
  · intro hc
    obtain ⟨a, b, he, ha⟩ := exists_first_comma hc
    refine ⟨a, b, he, ha, ?_⟩
    rw [hml, he, splitCommaOnce_first ha]

theorem claim_C9_amended_witness :
    manifestLine "nocomma" = LineOutcome.skipWarn ∧
      (["nocomma", "a,u"] : List String).foldl
          (stepRun (fun _ => some "x.com")) ([], ∅) =
        (["a,u"] : List String).foldl (stepRun (fun _ => some "x.com")) ([], ∅) := by
  have h := (claim_C9_amended "nocomma" (by decide) (by decide)).1 (by decide)
  exact ⟨h.1, h.2 (fun _ => some "x.com") ([], ∅) ["a,u"]⟩

/-- Claim C10: if the accumulated union of all parsed rules is empty, sealing
adds nothing — the catalog and the assembled output are unchanged and no
combined `blocklists-all` entry is synthesized; the combined entry exists
exactly when at least one rule was extracted, in which case it is present
with the full union. -/
theorem claim_C10_combined_only_if_nonempty (fetch : String → Option String)
    (lines : List String) :
    ((processManifest fetch lines).2 = ∅ →
      sealCatalog (processManifest fetch lines).1 (processManifest fetch lines).2 =
        (processManifest fetch lines).1 ∧
      assemble (sealCatalog (processManifest fetch lines).1 (processManifest fetch lines).2) =
        assemble (processManifest fetch lines).1) ∧
    ((processManifest fetch lines).2 ≠ ∅ →
      lookupD (sealCatalog (processManifest fetch lines).1 (processManifest fetch lines).2)
          "blocklists-all" = some (processManifest fetch lines).2) := by
  constructor
  · intro he
    have hseal : sealCatalog (processManifest fetch lines).1 (processManifest fetch lines).2 =
        (processManifest fetch lines).1 := by
      unfold sealCatalog
      rw [if_pos he]
    exact ⟨hseal, by rw [hseal]⟩
  · intro hne
    unfold sealCatalog
    rw [if_neg hne, lookupD_dictInsert]

theorem claim_C10_combined_only_if_nonempty_witness :
    sealCatalog (processManifest (fun _ => none) ["a,u"]).1
        (processManifest (fun _ => none) ["a,u"]).2
      = (processManifest (fun _ => none) ["a,u"]).1 :=
  ((claim_C10_combined_only_if_nonempty (fun _ => none) ["a,u"]).1 (by decide)).1
